import Mathlib

/-!
Verification of the Monaco command/keybinding adaptation layer of Theia.

This file shallowly embeds the two source files of the repository:
* `monaco-command.ts` (the `MonacoCommands` namespace and the
  `MonacoEditorCommandHandlers` command contribution), and
* `monaco-keybinding-contexts.ts` (the two focus-context predicate classes).

The embedded editor's registries (editor actions, default keybindings, menu
items, editor commands, core commands) are external inputs to this code, so
they appear as explicit parameters of the embedded functions.  Opaque
runtime values (icons, service accessors, command arguments, command results)
are modelled as abstract tokens.
-/

namespace Theia

/-- JavaScript `String.prototype.startsWith`, modelled over the character
list of the strings. -/
def strStartsWith (s pre : String) : Bool :=
  pre.data.isPrefixOf s.data

/-- Abstract identity of a Monaco icon object (`MonacoIcon` in the source). -/
abbrev MonacoIcon := String

/-- Abstract token for a `monaco.instantiation.ServicesAccessor`. -/
abbrev Accessor := Nat

/-- Abstract token for a runtime argument value passed to a command handler. -/
abbrev Value := Nat

/-- Abstract token for the result of running an embedded-editor command. -/
abbrev Effect := Nat

/-! ### JavaScript `Map` over string keys

`MonacoCommands.ACTIONS` and `CommandsRegistry.getCommands()` are JavaScript
`Map`s.  We model them as association lists with `Map.set` semantics:
`set` overwrites the entry in place when the key is present and appends
otherwise, so iteration order is insertion order. -/

namespace JSMap

/-- JavaScript `Map.prototype.set`: overwrite in place or append. -/
def set {α : Type} : List (String × α) → String → α → List (String × α)
  | [], k, v => [(k, v)]
  | (k₀, v₀) :: rest, k, v =>
    if k₀ = k then (k, v) :: rest else (k₀, v₀) :: set rest k v

/-- JavaScript `Map.prototype.get`: first entry with the key, if any. -/
def get {α : Type} (m : List (String × α)) (k : String) : Option α :=
  (m.find? (fun p => p.1 = k)).map Prod.snd

/-- JavaScript `Map.prototype.has`. -/
def has {α : Type} (m : List (String × α)) (k : String) : Bool :=
  (m.find? (fun p => p.1 = k)).isSome

end JSMap

/-! ### Editor, document and text model

`MonacoEditor.document` may be absent, and `document.textEditorModel` may be
absent; the handlers guard on `editor.document && editor.document.textEditorModel`. -/

/-- The options of a Monaco text model relevant here (`model.getOptions()`). -/
structure TextModelOptions where
  tabSize : Nat
deriving Repr, DecidableEq

/-- The Monaco `ITextModel` state the handlers read. -/
structure TextEditorModel where
  options : TextModelOptions
deriving Repr, DecidableEq

/-- The document of a `MonacoEditor`; its text-editor model may be absent. -/
structure Document where
  textEditorModel : Option TextEditorModel
deriving Repr, DecidableEq

/-- The slice of a `MonacoEditor` used by the configuration handlers. -/
structure Editor where
  document : Option Document
deriving Repr, DecidableEq

/-- `editor.document && editor.document.textEditorModel`. -/
def Editor.model (editor : Editor) : Option TextEditorModel :=
  editor.document.bind (fun d => d.textEditorModel)

/-- `monaco.editor.EndOfLineSequence`. -/
inductive EndOfLineSequence where
  | LF
  | CRLF
deriving Repr, DecidableEq

/-- Observable mutations the handlers push onto a text model. -/
inductive ModelEffect where
  | pushEOL (eol : EndOfLineSequence)
  | updateOptions (tabSize : Nat) (insertSpaces : Bool)
deriving Repr, DecidableEq

/-- `MonacoEditorCommandHandlers.setEol`: no-op without a model; otherwise
push CRLF exactly for the inputs `CRLF` and `"\r\n"`, and LF for everything
else. -/
def setEol (editor : Editor) (lineEnding : String) : List ModelEffect :=
  match editor.model with
  | some _ =>
    if lineEnding = "CRLF" || lineEnding = "\r\n" then
      [ModelEffect.pushEOL EndOfLineSequence.CRLF]
    else
      [ModelEffect.pushEOL EndOfLineSequence.LF]
  | none => []

/-- One entry of the EOL selection prompt: its label and the model effects of
accepting it with `QuickOpenMode.OPEN`. -/
structure EolItem where
  label : String
  accept : List ModelEffect
deriving Repr, DecidableEq

/-- The EOL selection prompt opened by `configureEol`. -/
structure EolPrompt where
  items : List EolItem
  placeholder : String
deriving Repr, DecidableEq

/-- `MonacoEditorCommandHandlers.configureEol`: one prompt item per line
ending in `['LF', 'CRLF']`; accepting an item runs `setEol`. -/
def configureEol (editor : Editor) : EolPrompt :=
  { items := ["LF", "CRLF"].map (fun lineEnding =>
      { label := lineEnding, accept := setEol editor lineEnding }),
    placeholder := "Select End of Line Sequence" }

/-- One entry of the tab-size selection prompt: the size it stands for, its
label, and the `model.updateOptions` argument of accepting it. -/
structure TabSizeItem where
  size : Nat
  label : String
  accept : ModelEffect
deriving Repr, DecidableEq

/-- The tab-size selection prompt opened by `configureTabSize`.
`selectIndex` is the prompt's preselection callback on the filter string. -/
structure TabSizePrompt where
  items : List TabSizeItem
  placeholder : String
  selectIndex : String → Int

/-- `MonacoEditorCommandHandlers.configureTabSize`: without a model nothing
happens (`none`); with one, the prompt offers `Array.from(Array(8), (_, x) => x + 1)`,
labels the current tab size as configured, accepts by updating the model
options with `size || tabSize` and `useSpaces`, and preselects index
`tabSize - 1` on an empty filter string. -/
def configureTabSize (editor : Editor) (useSpaces : Bool) : Option TabSizePrompt :=
  match editor.model with
  | none => none
  | some model =>
    let tabSize := model.options.tabSize
    let sizes := (List.range 8).map (fun x => x + 1)
    some
      { items := sizes.map (fun size =>
          { size := size
            label :=
              if size = tabSize then toString size ++ "   Configured Tab Size"
              else toString size
            accept := ModelEffect.updateOptions
              (if size = 0 then tabSize else size) useSpaces })
        placeholder := "Select Tab Size for Current File"
        selectIndex := fun lookFor =>
          if lookFor = "" then (tabSize : Int) - 1 else 0 }

/-! ### Focus-context predicates (`monaco-keybinding-contexts.ts`) -/

/-- The argument of `MonacoEditor.isFocused`. -/
structure FocusOptions where
  strict : Bool
deriving Repr, DecidableEq

/-- The slice of a `MonacoEditor` the strict focus context queries: its
`isFocused` state as a function of the focus options. -/
structure MonacoEditorObj where
  isFocused : FocusOptions → Bool

/-- An editor object that is not an `instanceof MonacoEditor`; abstract. -/
structure OtherEditor where
  tag : Nat
deriving Repr, DecidableEq

/-- The `editor` of an `EditorWidget`: either a Monaco editor or some other
`TextEditor` implementation. -/
inductive WidgetEditor where
  | monaco (e : MonacoEditorObj)
  | other (o : OtherEditor)

/-- The slice of an `EditorWidget` that `canHandle` reads. -/
structure EditorWidget where
  editor : WidgetEditor

/-- `MonacoStrictEditorTextFocusContext.canHandle`: delegate to
`editor.isFocused({ strict: true })` for Monaco editors, otherwise to the
base class (`superCanHandle`, external to this repository). -/
def MonacoStrictEditorTextFocusContext.canHandle
    (superCanHandle : EditorWidget → Bool) (widget : EditorWidget) : Bool :=
  match widget.editor with
  | WidgetEditor.monaco e => e.isFocused { strict := true }
  | WidgetEditor.other _ => superCanHandle widget

/-- A DOM element: its `id` and its parent chain up to a root. -/
inductive DomElement where
  | root (id : String)
  | child (id : String) (parent : DomElement)
deriving Repr, DecidableEq

/-- The `id` property of a DOM element. -/
def DomElement.id : DomElement → String
  | DomElement.root i => i
  | DomElement.child i _ => i

/-- The `parentElement` property of a DOM element. -/
def DomElement.parentElement : DomElement → Option DomElement
  | DomElement.root _ => none
  | DomElement.child _ p => some p

/-- The `while (parent)` loop body of `activeElementIsInEditor`: does this
element or one of its ancestors have a truthy `id` starting with the editor
widget factory id? -/
def DomElement.chainHasEditorId (factoryId : String) : DomElement → Bool
  | DomElement.root i => !(i = "") && strStartsWith i factoryId
  | DomElement.child i p =>
    (!(i = "") && strStartsWith i factoryId) || p.chainHasEditorId factoryId

/-- The slice of the DOM `document` the native-text-input context reads. -/
structure DomDocument where
  activeElement : Option DomElement

/-- `MonacoNativeTextInputFocusContext.activeElementIsInEditor`: walk the
proper ancestors of `document.activeElement` looking for an id that starts
with `EditorWidgetFactory.ID` (a constant external to this repository,
passed in as `factoryId`). -/
def activeElementIsInEditor (factoryId : String) (doc : DomDocument) : Bool :=
  match doc.activeElement with
  | none => false
  | some active =>
    match active.parentElement with
    | none => false
    | some parent => parent.chainHasEditorId factoryId

/-- `MonacoNativeTextInputFocusContext.isEnabled`: the base class's verdict
(`superIsEnabled`, external to this repository) conjoined with the negated
editor-containment check. -/
def MonacoNativeTextInputFocusContext.isEnabled
    (superIsEnabled : Bool) (factoryId : String) (doc : DomDocument) : Bool :=
  superIsEnabled && !(activeElementIsInEditor factoryId doc)

/-! ### Command handlers (`monaco-command.ts`, `MonacoEditorCommandHandlers`) -/

/-- The editor-service state `isEnabled` checks consult. -/
structure EditorServiceState where
  hasActiveCodeEditor : Bool
  hasFocusedCodeEditor : Bool
  nativeTextInputFocus : Bool
deriving Repr, DecidableEq

/-- A `monaco.editorExtensions` editor command: `runCommand(accessor, args)`. -/
structure EditorCommand where
  runCommand : Accessor → List Value → Effect

/-- The optional `when` clause of a core Monaco command. -/
structure CommandWhen where
  key : Option String
deriving Repr, DecidableEq

/-- A `monaco.commands.CommandsRegistry` command: its handler and its
optional `when` clause. -/
structure MonacoCoreCommand where
  handler : Accessor → List Value → Effect
  whenClause : Option CommandWhen

/-- A host `CommandHandler` as built by `newEditorCommandHandler`: `execute`
over the argument list and `isEnabled` over the editor-service state. -/
structure CommandHandler where
  execute : List Value → Effect
  isEnabled : EditorServiceState → Bool

/-- The registries and accessor `MonacoEditorCommandHandlers` consults. -/
structure HandlersEnv where
  getEditorCommand : String → Option EditorCommand
  getCommand : String → Option MonacoCoreCommand
  serviceAccessor : Accessor

/-- `MonacoEditorCommandHandlers.isNativeTextInputAware`:
`!!command.when && command.when.key === 'textInputFocus'`. -/
def isNativeTextInputAware (command : MonacoCoreCommand) : Bool :=
  match command.whenClause with
  | some w => w.key = some "textInputFocus"
  | none => false

/-- `MonacoEditorCommandHandlers.newEditorCommandHandler`: first the
editor-scoped command, then the core command, otherwise throw an error
naming the missing id. -/
def newEditorCommandHandler (env : HandlersEnv) (id : String) :
    Except String CommandHandler :=
  match env.getEditorCommand id with
  | some editorCommand =>
    Except.ok
      { execute := fun args => editorCommand.runCommand env.serviceAccessor args
        isEnabled := fun st => st.hasActiveCodeEditor || st.hasFocusedCodeEditor }
  | none =>
    match env.getCommand id with
    | some command =>
      Except.ok
        { execute := fun args => command.handler env.serviceAccessor args
          isEnabled := fun st =>
            if st.hasActiveCodeEditor || st.hasFocusedCodeEditor then true
            else if isNativeTextInputAware command && st.nativeTextInputFocus then true
            else false }
    | none => Except.error ("Could not find monaco command with ID: " ++ id)

/-! ### `MonacoCommands.ACTIONS` (`monaco-command.ts`, namespace initializer) -/

/-- `MonacoCommand`: a host command with an optional Monaco icon.  Entries
built from an editor action carry a label; entries built from a bare default
keybinding do not. -/
structure MonacoCommand where
  id : String
  label : Option String
  icon : Option MonacoIcon
deriving Repr, DecidableEq

/-- The `command` of a menu item of `MenuRegistry.getMenuItems(7)`. -/
structure MenuItemCommand where
  id : String
  icon : Option MonacoIcon
deriving Repr, DecidableEq

/-- A menu item; its `command` may be absent. -/
structure MenuItem where
  command : Option MenuItemCommand
deriving Repr, DecidableEq

/-- An entry of `EditorExtensionsRegistry.getEditorActions()`. -/
structure EditorAction where
  id : String
  label : String
deriving Repr, DecidableEq

/-- An entry of `KeybindingsRegistry.getDefaultKeybindings()`; only its
`command` id is read. -/
structure DefaultKeybinding where
  command : String
deriving Repr, DecidableEq

/-- `MonacoCommands.EXCLUDE_ACTIONS`. -/
def EXCLUDE_ACTIONS : List String :=
  ["editor.action.quickCommand",
   "editor.action.clipboardCutAction",
   "editor.action.clipboardCopyAction",
   "editor.action.clipboardPasteAction"]

/-- The `icons` map: for each menu item with a command carrying an icon,
record the icon under the command id. -/
def buildIcons (menuItems : List MenuItem) : List (String × MonacoIcon) :=
  menuItems.foldl
    (fun icons menuItem =>
      match menuItem.command with
      | some commandItem =>
        match commandItem.icon with
        | some icon => JSMap.set icons commandItem.id icon
        | none => icons
      | none => icons)
    []

/-- One step of the first population pass over the editor actions. -/
def actionStep (icons : List (String × MonacoIcon))
    (acts : List (String × MonacoCommand)) (action : EditorAction) :
    List (String × MonacoCommand) :=
  if EXCLUDE_ACTIONS.contains action.id then acts
  else
    JSMap.set acts action.id
      { id := action.id, label := some action.label, icon := JSMap.get icons action.id }

/-- One step of the second population pass over the default keybindings:
insert a bare entry only when the id is neither present nor excluded. -/
def keybindingStep (acts : List (String × MonacoCommand))
    (keybinding : DefaultKeybinding) : List (String × MonacoCommand) :=
  if !(JSMap.has acts keybinding.command) && !(EXCLUDE_ACTIONS.contains keybinding.command) then
    JSMap.set acts keybinding.command
      { id := keybinding.command, label := none, icon := none }
  else acts

/-- The state of `MonacoCommands.ACTIONS` after the first population pass
(over `EditorExtensionsRegistry.getEditorActions()`). -/
def actionsAfterEditorActions (menuItems : List MenuItem)
    (editorActions : List EditorAction) : List (String × MonacoCommand) :=
  editorActions.foldl (actionStep (buildIcons menuItems)) []

/-- `MonacoCommands.ACTIONS` after both population passes. -/
def buildACTIONS (menuItems : List MenuItem) (editorActions : List EditorAction)
    (defaultKeybindings : List DefaultKeybinding) : List (String × MonacoCommand) :=
  defaultKeybindings.foldl keybindingStep (actionsAfterEditorActions menuItems editorActions)

/-- `MonacoEditorCommandHandlers.registerBuiltinMonacoActions`: register one
host command per `ACTIONS` value, with `newEditorCommandHandler(action.id)`;
a thrown handler-construction error aborts the registration. -/
def registerBuiltinMonacoActions (env : HandlersEnv) :
    List MonacoCommand → Except String (List (MonacoCommand × CommandHandler))
  | [] => Except.ok []
  | action :: rest =>
    match newEditorCommandHandler env action.id with
    | Except.error e => Except.error e
    | Except.ok handler =>
      match registerBuiltinMonacoActions env rest with
      | Except.error e => Except.error e
      | Except.ok registered => Except.ok ((action, handler) :: registered)

/-- `instantiationService.invokeFunction(fn, ...args)`: apply `fn` to the
service accessor and the arguments. -/
def invokeFunction (accessor : Accessor) (fn : Accessor → List Value → Effect)
    (args : List Value) : Effect :=
  fn accessor args

/-- `MonacoEditorCommandHandlers.registerInternalLanguageServiceCommands`:
for each key of `CommandsRegistry.getCommands()` starting with `_execute`,
register a command of that id whose `execute` forwards the argument list to
the original handler through the instantiation service.  The non-null
assertion `monacoCommands.get(command)!` is modelled by an `Option`-valued
execute: `none` is the (unreachable) failed assertion. -/
def registerInternalLanguageServiceCommands (accessor : Accessor)
    (monacoCommands : List (String × MonacoCoreCommand)) :
    List (String × (List Value → Option Effect)) :=
  (monacoCommands.map Prod.fst).foldl
    (fun registered command =>
      if strStartsWith command "_execute" then
        registered ++
          [(command, fun args =>
            (JSMap.get monacoCommands command).map
              (fun c => invokeFunction accessor c.handler args))]
      else registered)
    []

/-! ### Concrete sample inputs used to instantiate the theorems -/

/-- The expected label of the tab-size prompt entry for `size` when the
model's current tab size is `tabSize`. -/
def configuredTabLabel (size tabSize : Nat) : String :=
  if size = tabSize then toString size ++ "   Configured Tab Size"
  else toString size

/-- The sizes offered by a tab-size prompt. -/
def promptSizes (p : TabSizePrompt) : List Nat :=
  p.items.map TabSizeItem.size

/-- The labels offered by a tab-size prompt. -/
def promptLabels (p : TabSizePrompt) : List String :=
  p.items.map TabSizeItem.label

/-- The preselection a tab-size prompt computes for the empty filter. -/
def promptSelectEmpty (p : TabSizePrompt) : Int :=
  p.selectIndex ""

/-- A sample editor whose document model is present, with tab size 4. -/
def editorWithModelW : Editor :=
  { document := some { textEditorModel := some { options := { tabSize := 4 } } } }

/-- A sample editor whose document model is absent. -/
def editorNoModelW : Editor :=
  { document := none }

/-- A sample Monaco editor object for the focus-context instantiation. -/
def monacoObjW : MonacoEditorObj :=
  { isFocused := fun opts => opts.strict }

/-- A sample widget holding `monacoObjW`. -/
def strictWidgetW : EditorWidget :=
  { editor := WidgetEditor.monaco monacoObjW }

/-- A sample base-class `canHandle` for the focus-context instantiation. -/
def superCanHandleW : EditorWidget → Bool :=
  fun _ => false

/-- A sample DOM document whose active element sits inside an editor widget
(its parent id starts with the factory id). -/
def docInEditorW : DomDocument :=
  { activeElement := some (DomElement.child "inner"
      (DomElement.child "theia-editor-widget-3" (DomElement.root ""))) }

/-- A sample editor-action list: one action with id `x`. -/
def eaW : List EditorAction :=
  [{ id := "x", label := "Find X" }]

/-- A sample default-keybinding list: one keybinding for the already-known
id `x` and one for the fresh id `y`. -/
def kbW : List DefaultKeybinding :=
  [{ command := "x" }, { command := "y" }]

/-- A sample core-command map with one internal and one ordinary command. -/
def internalCmdsW : List (String × MonacoCoreCommand) :=
  [("_executeFoo", { handler := fun accessor args => accessor + args.length,
                     whenClause := none }),
   ("bar", { handler := fun _ _ => 0, whenClause := none })]

/-- A sample handler environment: one editor command `x`, one core command
`y`, nothing else. -/
def handlersEnvW : HandlersEnv :=
  { getEditorCommand := fun id =>
      if id = "x" then some { runCommand := fun _ _ => 1 } else none
    getCommand := fun id =>
      if id = "y" then some { handler := fun _ _ => 2, whenClause := none } else none
    serviceAccessor := 0 }

/-- The registration produced by `registerBuiltinMonacoActions` on the
sample environment and the sample `ACTIONS` inputs. -/
def builtinRegW : List (MonacoCommand × CommandHandler) :=
  match registerBuiltinMonacoActions handlersEnvW ((buildACTIONS [] eaW kbW).map Prod.snd) with
  | Except.ok reg => reg
  | Except.error _ => []

end Theia

namespace Theia

/-! ### Lemmas about the JavaScript `Map` model -/

/-- `get` on a cons cell checks the head key first. -/
theorem JSMap.get_cons {α : Type} (k₀ : String) (v₀ : α) (rest : List (String × α))
    (k : String) :
    JSMap.get ((k₀, v₀) :: rest) k = if k₀ = k then some v₀ else JSMap.get rest k := by
  by_cases h : k₀ = k <;> simp [JSMap.get, List.find?, h]

/-- `has` on a cons cell checks the head key first. -/
theorem JSMap.has_cons {α : Type} (k₀ : String) (v₀ : α) (rest : List (String × α))
    (k : String) :
    JSMap.has ((k₀, v₀) :: rest) k = (decide (k₀ = k) || JSMap.has rest k) := by
  by_cases h : k₀ = k <;> simp [JSMap.has, List.find?, h]

/-- `has` decides membership in the key list. -/
theorem JSMap.has_iff_mem_keys {α : Type} (m : List (String × α)) (k : String) :
    JSMap.has m k = true ↔ k ∈ m.map Prod.fst := by
  induction m with
  | nil => simp [JSMap.has]
  | cons q rest ih =>
    obtain ⟨k₀, v₀⟩ := q
    rw [JSMap.has_cons]
    by_cases h : k₀ = k
    · subst h
      simp
    · simp [h, ih, Ne.symm h]

/-- `set` leaves entries at other keys untouched. -/
theorem JSMap.get_set_ne {α : Type} (m : List (String × α)) (k k' : String) (v : α)
    (h : k' ≠ k) :
    JSMap.get (JSMap.set m k v) k' = JSMap.get m k' := by
  induction m with
  | nil => simp [JSMap.set, JSMap.get_cons, JSMap.get, Ne.symm h]
  | cons q rest ih =>
    obtain ⟨k₀, v₀⟩ := q
    by_cases hk : k₀ = k
    · subst hk
      have hne : ¬ k₀ = k' := fun e => h (e.symm)
      simp [JSMap.set, JSMap.get_cons, hne]
    · simp [JSMap.set, hk, JSMap.get_cons, ih]

/-- The key list after `set`: unchanged when the key was present, extended
by the key otherwise. -/
theorem JSMap.keys_set {α : Type} (m : List (String × α)) (k : String) (v : α) :
    (JSMap.set m k v).map Prod.fst =
      if JSMap.has m k then m.map Prod.fst else m.map Prod.fst ++ [k] := by
  induction m with
  | nil => simp [JSMap.set, JSMap.has]
  | cons q rest ih =>
    obtain ⟨k₀, v₀⟩ := q
    rw [JSMap.has_cons]
    by_cases hk : k₀ = k
    · subst hk
      simp [JSMap.set]
    · by_cases hr : JSMap.has rest k <;> simp [JSMap.set, hk, ih, hr]

/-- `set` preserves distinctness of the keys. -/
theorem JSMap.nodup_keys_set {α : Type} (m : List (String × α)) (k : String) (v : α)
    (h : (m.map Prod.fst).Nodup) :
    ((JSMap.set m k v).map Prod.fst).Nodup := by
  rw [JSMap.keys_set]
  by_cases hk : JSMap.has m k
  · simpa [hk] using h
  · have hnm : k ∉ m.map Prod.fst := fun hmem =>
      hk ((JSMap.has_iff_mem_keys m k).mpr hmem)
    simp [hk, List.nodup_append, h, hnm]

/-- Key membership after `set`. -/
theorem JSMap.mem_keys_set {α : Type} (m : List (String × α)) (k : String) (v : α)
    (id : String) :
    id ∈ (JSMap.set m k v).map Prod.fst ↔ id = k ∨ id ∈ m.map Prod.fst := by
  rw [JSMap.keys_set]
  by_cases hk : JSMap.has m k
  · have hkm := (JSMap.has_iff_mem_keys m k).mp hk
    simp only [hk, if_true]
    constructor
    · exact fun h => Or.inr h
    · rintro (rfl | h)
      · exact hkm
      · exact h
  · simp [hk]
    tauto

/-- Entries after `set` come from the old map or are the new pair. -/
theorem JSMap.mem_set {α : Type} (m : List (String × α)) (k : String) (v : α) :
    ∀ p ∈ JSMap.set m k v, p ∈ m ∨ p = (k, v) := by
  induction m with
  | nil =>
    intro p hp
    simp [JSMap.set] at hp
    simp [hp]
  | cons q rest ih =>
    intro p hp
    obtain ⟨k₀, v₀⟩ := q
    by_cases hk : k₀ = k
    · subst hk
      simp [JSMap.set] at hp
      rcases hp with rfl | hp
      · simp
      · simp [hp]
    · simp [JSMap.set, hk] at hp
      rcases hp with rfl | hp
      · simp
      · rcases ih p hp with h | h
        · simp [h]
        · simp [h]

/-! ### Lemmas about the `ACTIONS` population passes -/

/-- Key membership across one editor-action step. -/
theorem mem_keys_actionStep (icons : List (String × MonacoIcon))
    (acts : List (String × MonacoCommand)) (a : EditorAction) (id : String) :
    id ∈ (actionStep icons acts a).map Prod.fst ↔
      id ∈ acts.map Prod.fst ∨ (id = a.id ∧ a.id ∉ EXCLUDE_ACTIONS) := by
  unfold actionStep
  by_cases hmem : a.id ∈ EXCLUDE_ACTIONS
  · rw [if_pos (by simpa using hmem)]
    tauto
  · rw [if_neg (by simpa using hmem), JSMap.mem_keys_set]
    tauto

/-- Key membership across the whole editor-action pass. -/
theorem mem_keys_actionsPass (icons : List (String × MonacoIcon)) :
    ∀ (ea : List EditorAction) (acc : List (String × MonacoCommand)) (id : String),
      id ∈ (ea.foldl (actionStep icons) acc).map Prod.fst ↔
        id ∈ acc.map Prod.fst ∨ ∃ a ∈ ea, a.id = id ∧ a.id ∉ EXCLUDE_ACTIONS := by
  intro ea
  induction ea with
  | nil => intro acc id; simp
  | cons a rest ih =>
    intro acc id
    rw [List.foldl_cons, ih, mem_keys_actionStep]
    constructor
    · rintro ((h | ⟨rfl, hx⟩) | ⟨b, hb, rfl, hx⟩)
      · exact Or.inl h
      · exact Or.inr ⟨a, by simp, rfl, hx⟩
      · exact Or.inr ⟨b, by simp [hb], rfl, hx⟩
    · rintro (h | ⟨b, hb, rfl, hx⟩)
      · exact Or.inl (Or.inl h)
      · rcases List.mem_cons.mp hb with rfl | hb
        · exact Or.inl (Or.inr ⟨rfl, hx⟩)
        · exact Or.inr ⟨b, hb, rfl, hx⟩

/-- Key membership across one default-keybinding step. -/
theorem mem_keys_keybindingStep (acts : List (String × MonacoCommand))
    (b : DefaultKeybinding) (id : String) :
    id ∈ (keybindingStep acts b).map Prod.fst ↔
      id ∈ acts.map Prod.fst ∨ (id = b.command ∧ b.command ∉ EXCLUDE_ACTIONS) := by
  unfold keybindingStep
  by_cases h1 : JSMap.has acts b.command
  · have hmem := (JSMap.has_iff_mem_keys acts b.command).mp h1
    rw [if_neg (by simp [h1])]
    constructor
    · exact fun h => Or.inl h
    · rintro (h | ⟨rfl, hx⟩)
      · exact h
      · exact hmem
  · by_cases hmem2 : b.command ∈ EXCLUDE_ACTIONS
    · rw [if_neg (by simp [h1, hmem2])]
      constructor
      · exact fun h => Or.inl h
      · rintro (h | ⟨rfl, hx⟩)
        · exact h
        · exact absurd hmem2 hx
    · rw [if_pos (by simp [h1, hmem2]), JSMap.mem_keys_set]
      constructor
      · rintro (rfl | h)
        · exact Or.inr ⟨rfl, hmem2⟩
        · exact Or.inl h
      · rintro (h | ⟨rfl, hx⟩)
        · exact Or.inr h
        · exact Or.inl rfl

/-- Key membership across the whole default-keybinding pass. -/
theorem mem_keys_keybindingPass :
    ∀ (kb : List DefaultKeybinding) (acc : List (String × MonacoCommand)) (id : String),
      id ∈ (kb.foldl keybindingStep acc).map Prod.fst ↔
        id ∈ acc.map Prod.fst ∨ ∃ b ∈ kb, b.command = id ∧ b.command ∉ EXCLUDE_ACTIONS := by
  intro kb
  induction kb with
  | nil => intro acc id; simp
  | cons b rest ih =>
    intro acc id
    rw [List.foldl_cons, ih, mem_keys_keybindingStep]
    constructor
    · rintro ((h | ⟨rfl, hx⟩) | ⟨c, hc, rfl, hx⟩)
      · exact Or.inl h
      · exact Or.inr ⟨b, by simp, rfl, hx⟩
      · exact Or.inr ⟨c, by simp [hc], rfl, hx⟩
    · rintro (h | ⟨c, hc, rfl, hx⟩)
      · exact Or.inl (Or.inl h)
      · rcases List.mem_cons.mp hc with rfl | hc
        · exact Or.inl (Or.inr ⟨rfl, hx⟩)
        · exact Or.inr ⟨c, hc, rfl, hx⟩

/-- One default-keybinding step never changes the value stored at a key
that is already present. -/
theorem get_keybindingStep_of_has (acts : List (String × MonacoCommand))
    (b : DefaultKeybinding) (id : String) (h : JSMap.has acts id = true) :
    JSMap.get (keybindingStep acts b) id = JSMap.get acts id := by
  unfold keybindingStep
  by_cases h1 : JSMap.has acts b.command
  · rw [if_neg (by simp [h1])]
  · by_cases hmem2 : b.command ∈ EXCLUDE_ACTIONS
    · rw [if_neg (by simp [h1, hmem2])]
    · have hne : id ≠ b.command := by
        rintro rfl
        exact h1 h
      rw [if_pos (by simp [h1, hmem2])]
      exact JSMap.get_set_ne _ _ _ _ hne

/-- One default-keybinding step keeps every present key present. -/
theorem has_keybindingStep_of_has (acts : List (String × MonacoCommand))
    (b : DefaultKeybinding) (id : String) (h : JSMap.has acts id = true) :
    JSMap.has (keybindingStep acts b) id = true := by
  rw [JSMap.has_iff_mem_keys, mem_keys_keybindingStep]
  exact Or.inl ((JSMap.has_iff_mem_keys acts id).mp h)

/-- The whole default-keybinding pass never changes the value stored at a
key that is already present. -/
theorem keybindingPass_preserves :
    ∀ (kb : List DefaultKeybinding) (acts : List (String × MonacoCommand)) (id : String),
      JSMap.has acts id = true →
      JSMap.get (kb.foldl keybindingStep acts) id = JSMap.get acts id := by
  intro kb
  induction kb with
  | nil => intro acts id _; simp
  | cons b rest ih =>
    intro acts id h
    rw [List.foldl_cons,
      ih (keybindingStep acts b) id (has_keybindingStep_of_has acts b id h),
      get_keybindingStep_of_has acts b id h]

/-- The editor-action pass preserves distinctness of the keys. -/
theorem nodup_keys_actionsPass (icons : List (String × MonacoIcon)) :
    ∀ (ea : List EditorAction) (acc : List (String × MonacoCommand)),
      (acc.map Prod.fst).Nodup →
      ((ea.foldl (actionStep icons) acc).map Prod.fst).Nodup := by
  intro ea
  induction ea with
  | nil => intro acc h; simpa using h
  | cons a rest ih =>
    intro acc h
    rw [List.foldl_cons]
    apply ih
    unfold actionStep
    by_cases hx : a.id ∈ EXCLUDE_ACTIONS
    · rw [if_pos (by simpa using hx)]
      exact h
    · rw [if_neg (by simpa using hx)]
      exact JSMap.nodup_keys_set acc a.id _ h

/-- The default-keybinding pass preserves distinctness of the keys. -/
theorem nodup_keys_keybindingPass :
    ∀ (kb : List DefaultKeybinding) (acc : List (String × MonacoCommand)),
      (acc.map Prod.fst).Nodup →
      ((kb.foldl keybindingStep acc).map Prod.fst).Nodup := by
  intro kb
  induction kb with
  | nil => intro acc h; simpa using h
  | cons b rest ih =>
    intro acc h
    rw [List.foldl_cons]
    apply ih
    unfold keybindingStep
    by_cases h1 : JSMap.has acc b.command
    · rw [if_neg (by simp [h1])]
      exact h
    · by_cases hmem2 : b.command ∈ EXCLUDE_ACTIONS
      · rw [if_neg (by simp [h1, hmem2])]
        exact h
      · rw [if_pos (by simp [h1, hmem2])]
        exact JSMap.nodup_keys_set acc b.command _ h

/-- A successful `registerBuiltinMonacoActions` run registers exactly the
given commands, in order. -/
theorem registerBuiltin_ok_map_fst (env : HandlersEnv) :
    ∀ (acts : List MonacoCommand) (reg : List (MonacoCommand × CommandHandler)),
      registerBuiltinMonacoActions env acts = Except.ok reg →
      reg.map Prod.fst = acts := by
  intro acts
  induction acts with
  | nil =>
    intro reg h
    simp only [registerBuiltinMonacoActions] at h
    cases h
    simp
  | cons a rest ih =>
    intro reg h
    simp only [registerBuiltinMonacoActions] at h
    cases hh : newEditorCommandHandler env a.id with
    | error e => rw [hh] at h; cases h
    | ok hd =>
      rw [hh] at h
      cases hr : registerBuiltinMonacoActions env rest with
      | error e => rw [hr] at h; cases h
      | ok r2 =>
        rw [hr] at h
        cases h
        simp [ih r2 hr]

/-- Properties transported through the editor-action pass: every output
entry is an input entry or an inserted action entry. -/
theorem mem_actionsPass_shape (icons : List (String × MonacoIcon))
    (Q : String × MonacoCommand → Prop) :
    ∀ (ea : List EditorAction) (acc : List (String × MonacoCommand)),
      (∀ p ∈ acc, Q p) →
      (∀ a ∈ ea, Q (a.id,
        { id := a.id, label := some a.label, icon := JSMap.get icons a.id })) →
      ∀ p ∈ ea.foldl (actionStep icons) acc, Q p := by
  intro ea
  induction ea with
  | nil =>
    intro acc hacc _ p hp
    exact hacc p (by simpa using hp)
  | cons a rest ih =>
    intro acc hacc hins p hp
    rw [List.foldl_cons] at hp
    refine ih (actionStep icons acc a) ?_
      (fun b hb => hins b (List.mem_cons_of_mem a hb)) p hp
    intro q hq
    unfold actionStep at hq
    by_cases hx : a.id ∈ EXCLUDE_ACTIONS
    · rw [if_pos (by simpa using hx)] at hq
      exact hacc q hq
    · rw [if_neg (by simpa using hx)] at hq
      rcases JSMap.mem_set acc a.id _ q hq with h | h
      · exact hacc q h
      · rw [h]
        exact hins a (List.mem_cons_self a rest)

/-- Properties transported through the default-keybinding pass: every
output entry is an input entry or an inserted bare entry. -/
theorem mem_keybindingPass_shape (Q : String × MonacoCommand → Prop) :
    ∀ (kb : List DefaultKeybinding) (acc : List (String × MonacoCommand)),
      (∀ p ∈ acc, Q p) →
      (∀ b ∈ kb, Q (b.command, { id := b.command, label := none, icon := none })) →
      ∀ p ∈ kb.foldl keybindingStep acc, Q p := by
  intro kb
  induction kb with
  | nil =>
    intro acc hacc _ p hp
    exact hacc p (by simpa using hp)
  | cons b rest ih =>
    intro acc hacc hins p hp
    rw [List.foldl_cons] at hp
    refine ih (keybindingStep acc b) ?_
      (fun c hc => hins c (List.mem_cons_of_mem b hc)) p hp
    intro q hq
    unfold keybindingStep at hq
    by_cases h1 : JSMap.has acc b.command
    · rw [if_neg (by simp [h1])] at hq
      exact hacc q hq
    · by_cases hmem2 : b.command ∈ EXCLUDE_ACTIONS
      · rw [if_neg (by simp [h1, hmem2])] at hq
        exact hacc q hq
      · rw [if_pos (by simp [h1, hmem2])] at hq
        rcases JSMap.mem_set acc b.command _ q hq with h | h
        · exact hacc q h
        · rw [h]
          exact hins b (List.mem_cons_self b rest)

/-- Every `ACTIONS` entry either mirrors an editor action (with its label
and its icon from the menu registry) or is a bare entry for a
default-keybinding command. -/
theorem buildACTIONS_entry_shape (menuItems : List MenuItem)
    (editorActions : List EditorAction) (defaultKeybindings : List DefaultKeybinding) :
    ∀ p ∈ buildACTIONS menuItems editorActions defaultKeybindings,
      (∃ a ∈ editorActions, a.id = p.1 ∧
        p.2 = { id := a.id, label := some a.label,
                icon := JSMap.get (buildIcons menuItems) a.id })
      ∨ (p.2 = { id := p.1, label := none, icon := none }
        ∧ ∃ b ∈ defaultKeybindings, b.command = p.1) := by
  unfold buildACTIONS
  apply mem_keybindingPass_shape
  · unfold actionsAfterEditorActions
    apply mem_actionsPass_shape
    · intro p hp
      simp at hp
    · intro a ha
      exact Or.inl ⟨a, ha, rfl, rfl⟩
  · intro b hb
    exact Or.inr ⟨rfl, b, hb, rfl⟩

/-- The value stored at a key of `ACTIONS` carries that key as its id. -/
theorem buildACTIONS_entry_id (menuItems : List MenuItem)
    (editorActions : List EditorAction) (defaultKeybindings : List DefaultKeybinding) :
    ∀ p ∈ buildACTIONS menuItems editorActions defaultKeybindings, (p.2).id = p.1 := by
  intro p hp
  rcases buildACTIONS_entry_shape menuItems editorActions defaultKeybindings p hp with
    ⟨a, _, hid, hv⟩ | ⟨hv, _⟩
  · rw [hv]
    exact hid
  · rw [hv]

/-- The ids present in `ACTIONS` are exactly the non-excluded editor-action
ids and default-keybinding command ids. -/
theorem mem_keys_buildACTIONS (menuItems : List MenuItem)
    (editorActions : List EditorAction) (defaultKeybindings : List DefaultKeybinding)
    (id : String) :
    id ∈ (buildACTIONS menuItems editorActions defaultKeybindings).map Prod.fst ↔
      ((∃ a ∈ editorActions, a.id = id) ∨ (∃ b ∈ defaultKeybindings, b.command = id))
        ∧ id ∉ EXCLUDE_ACTIONS := by
  unfold buildACTIONS actionsAfterEditorActions
  rw [mem_keys_keybindingPass, mem_keys_actionsPass]
  constructor
  · rintro ((h | ⟨a, ha, rfl, hx⟩) | ⟨b, hb, rfl, hx⟩)
    · simp at h
    · exact ⟨Or.inl ⟨a, ha, rfl⟩, hx⟩
    · exact ⟨Or.inr ⟨b, hb, rfl⟩, hx⟩
  · rintro ⟨h | h, hx⟩
    · obtain ⟨a, ha, hid⟩ := h
      exact Or.inl (Or.inr ⟨a, ha, hid, by rw [hid]; exact hx⟩)
    · obtain ⟨b, hb, hid⟩ := h
      exact Or.inr ⟨b, hb, hid, by rw [hid]; exact hx⟩

/-- Folding a conditional append from the left yields the filtered map. -/
theorem foldl_if_append {α β : Type} (p : α → Bool) (g : α → β) :
    ∀ (l : List α) (acc : List β),
      l.foldl (fun r c => if p c then r ++ [g c] else r) acc
        = acc ++ (l.filter p).map g := by
  intro l
  induction l with
  | nil => intro acc; simp
  | cons a rest ih =>
    intro acc
    rw [List.foldl_cons]
    by_cases h : p a
    · rw [if_pos h, ih]
      simp [List.filter_cons, h]
    · rw [if_neg h, ih]
      simp [List.filter_cons, h]

/-- C1: `newEditorCommandHandler(id)` throws the error naming the missing id
exactly when `id` resolves in neither the editor-command registry nor the
core command registry; when either lookup succeeds it returns a handler. -/
theorem newEditorCommandHandler_error_iff_unknown (env : HandlersEnv) (id : String) :
    (newEditorCommandHandler env id
        = Except.error ("Could not find monaco command with ID: " ++ id)
      ↔ env.getEditorCommand id = none ∧ env.getCommand id = none)
    ∧ ((∃ h, newEditorCommandHandler env id = Except.ok h)
      ↔ ((env.getEditorCommand id).isSome ∨ (env.getCommand id).isSome)) := by
  constructor
  · unfold newEditorCommandHandler
    cases hec : env.getEditorCommand id <;> cases hc : env.getCommand id <;> simp
  · unfold newEditorCommandHandler
    cases hec : env.getEditorCommand id <;> cases hc : env.getCommand id <;> simp

/-- C1 witness: in the sample environment, the unknown id `z` throws and the
known ids `x` and `y` do not. -/
theorem newEditorCommandHandler_error_iff_unknown_witness :
    (newEditorCommandHandler handlersEnvW "z"
        = Except.error ("Could not find monaco command with ID: " ++ "z")
      ↔ handlersEnvW.getEditorCommand "z" = none ∧ handlersEnvW.getCommand "z" = none)
    ∧ ((∃ h, newEditorCommandHandler handlersEnvW "x" = Except.ok h)
      ↔ ((handlersEnvW.getEditorCommand "x").isSome ∨ (handlersEnvW.getCommand "x").isSome)) :=
  ⟨(newEditorCommandHandler_error_iff_unknown handlersEnvW "z").1,
   (newEditorCommandHandler_error_iff_unknown handlersEnvW "x").2⟩

/-- C5: with a present document model, the tab-size prompt offers exactly
the sizes 1 through 8 in increasing order, labels the entry equal to the
current tab size as the configured one, and, when the current tab size is
one of the offered sizes, preselects exactly that entry on an empty filter
string. -/
theorem configureTabSize_choices (editor : Editor) (useSpaces : Bool)
    (model : TextEditorModel) (hm : editor.model = some model)
    (h1 : 1 ≤ model.options.tabSize) (h8 : model.options.tabSize ≤ 8) :
    (configureTabSize editor useSpaces).map promptSizes = some [1, 2, 3, 4, 5, 6, 7, 8]
    ∧ (configureTabSize editor useSpaces).map promptLabels
        = some [configuredTabLabel 1 model.options.tabSize,
                configuredTabLabel 2 model.options.tabSize,
                configuredTabLabel 3 model.options.tabSize,
                configuredTabLabel 4 model.options.tabSize,
                configuredTabLabel 5 model.options.tabSize,
                configuredTabLabel 6 model.options.tabSize,
                configuredTabLabel 7 model.options.tabSize,
                configuredTabLabel 8 model.options.tabSize]
    ∧ (configureTabSize editor useSpaces).map promptSelectEmpty
        = some ((model.options.tabSize : Int) - 1)
    ∧ [1, 2, 3, 4, 5, 6, 7, 8].get? (model.options.tabSize - 1)
        = some model.options.tabSize := by
  refine ⟨?_, ?_, ?_, ?_⟩
  · simp [configureTabSize, hm, promptSizes]
    rfl
  · simp [configureTabSize, hm, promptLabels, configuredTabLabel]
    rfl
  · simp [configureTabSize, hm, promptSelectEmpty]
  · interval_cases h : model.options.tabSize <;> simp_all

/-- C5 witness: the sample editor with tab size 4. -/
theorem configureTabSize_choices_witness :
    (configureTabSize editorWithModelW true).map promptSizes
        = some [1, 2, 3, 4, 5, 6, 7, 8]
    ∧ (configureTabSize editorWithModelW true).map promptLabels
        = some [configuredTabLabel 1 4, configuredTabLabel 2 4,
                configuredTabLabel 3 4, configuredTabLabel 4 4,
                configuredTabLabel 5 4, configuredTabLabel 6 4,
                configuredTabLabel 7 4, configuredTabLabel 8 4]
    ∧ (configureTabSize editorWithModelW true).map promptSelectEmpty
        = some ((4 : Int) - 1)
    ∧ [1, 2, 3, 4, 5, 6, 7, 8].get? (4 - 1) = some 4 :=
  configureTabSize_choices editorWithModelW true { options := { tabSize := 4 } }
    rfl (by decide) (by decide)

/-- C6: the EOL prompt offers exactly the labels `LF` then `CRLF`, and with
a present document model accepting a choice pushes the corresponding
end-of-line sequence onto the model. -/
theorem configureEol_choices (editor : Editor) (model : TextEditorModel)
    (hm : editor.model = some model) :
    (configureEol editor).items.map EolItem.label = ["LF", "CRLF"]
    ∧ (configureEol editor).items.map EolItem.accept
        = [[ModelEffect.pushEOL EndOfLineSequence.LF],
           [ModelEffect.pushEOL EndOfLineSequence.CRLF]] := by
  constructor
  · simp [configureEol]
  · simp [configureEol, setEol, hm]

/-- C6 witness: the sample editor with a present model. -/
theorem configureEol_choices_witness :
    (configureEol editorWithModelW).items.map EolItem.label = ["LF", "CRLF"]
    ∧ (configureEol editorWithModelW).items.map EolItem.accept
        = [[ModelEffect.pushEOL EndOfLineSequence.LF],
           [ModelEffect.pushEOL EndOfLineSequence.CRLF]] :=
  configureEol_choices editorWithModelW { options := { tabSize := 4 } } rfl

/-- C7: with an absent document model, `setEol` pushes nothing and
`configureTabSize` opens no prompt and changes nothing. -/
theorem setEol_configureTabSize_noop_without_model (editor : Editor)
    (lineEnding : String) (useSpaces : Bool) (hm : editor.model = none) :
    setEol editor lineEnding = [] ∧ configureTabSize editor useSpaces = none := by
  constructor
  · simp [setEol, hm]
  · simp [configureTabSize, hm]

/-- C7 witness: the sample editor without a document. -/
theorem setEol_configureTabSize_noop_without_model_witness :
    setEol editorNoModelW "LF" = [] ∧ configureTabSize editorNoModelW true = none :=
  setEol_configureTabSize_noop_without_model editorNoModelW "LF" true rfl

/-- C8: `MonacoStrictEditorTextFocusContext.canHandle` returns the Monaco
editor's own strict focus query when the widget's editor is a Monaco editor,
and the base class's result otherwise. -/
theorem monacoStrictFocus_canHandle_delegates (superCanHandle : EditorWidget → Bool)
    (widget : EditorWidget) :
    (∀ e, widget.editor = WidgetEditor.monaco e →
      MonacoStrictEditorTextFocusContext.canHandle superCanHandle widget
        = e.isFocused { strict := true })
    ∧ (∀ o, widget.editor = WidgetEditor.other o →
      MonacoStrictEditorTextFocusContext.canHandle superCanHandle widget
        = superCanHandle widget) := by
  constructor
  · intro e he
    simp [MonacoStrictEditorTextFocusContext.canHandle, he]
  · intro o ho
    simp [MonacoStrictEditorTextFocusContext.canHandle, ho]

/-- C8 witness: the sample widget holding a Monaco editor. -/
theorem monacoStrictFocus_canHandle_delegates_witness :
    MonacoStrictEditorTextFocusContext.canHandle superCanHandleW strictWidgetW
      = monacoObjW.isFocused { strict := true } :=
  (monacoStrictFocus_canHandle_delegates superCanHandleW strictWidgetW).1 monacoObjW rfl

/-- C9: `MonacoNativeTextInputFocusContext.isEnabled` only restricts the
base predicate: it is false whenever the base is false, true only when the
base is true, and false whenever an ancestor of the active element carries
an id starting with the editor-widget factory id. -/
theorem monacoNativeTextInput_isEnabled_restricts (superIsEnabled : Bool)
    (factoryId : String) (doc : DomDocument) :
    (superIsEnabled = false →
      MonacoNativeTextInputFocusContext.isEnabled superIsEnabled factoryId doc = false)
    ∧ (MonacoNativeTextInputFocusContext.isEnabled superIsEnabled factoryId doc = true →
      superIsEnabled = true)
    ∧ (activeElementIsInEditor factoryId doc = true →
      MonacoNativeTextInputFocusContext.isEnabled superIsEnabled factoryId doc = false) := by
  refine ⟨?_, ?_, ?_⟩
  · intro h
    simp [MonacoNativeTextInputFocusContext.isEnabled, h]
  · intro h
    simp [MonacoNativeTextInputFocusContext.isEnabled] at h
    exact h.1
  · intro h
    simp [MonacoNativeTextInputFocusContext.isEnabled, h]

/-- C9 witness: a false base verdict forces a false result, and the sample
document inside an editor widget forces a false result even with a true
base verdict. -/
theorem monacoNativeTextInput_isEnabled_restricts_witness :
    MonacoNativeTextInputFocusContext.isEnabled false "theia-editor" docInEditorW = false
    ∧ MonacoNativeTextInputFocusContext.isEnabled true "theia-editor" docInEditorW = false :=
  ⟨(monacoNativeTextInput_isEnabled_restricts false "theia-editor" docInEditorW).1 rfl,
   (monacoNativeTextInput_isEnabled_restricts true "theia-editor" docInEditorW).2.2 (by decide)⟩

/-- C10: with a present document model, every line ending other than `CRLF`
and `"\r\n"` — not only `LF` — pushes the LF end-of-line sequence. -/
theorem setEol_defaults_to_LF (editor : Editor) (model : TextEditorModel)
    (lineEnding : String) (hm : editor.model = some model)
    (h1 : lineEnding ≠ "CRLF") (h2 : lineEnding ≠ "\r\n") :
    setEol editor lineEnding = [ModelEffect.pushEOL EndOfLineSequence.LF] := by
  simp [setEol, hm, h1, h2]

/-- C10 witness: the unrecognised line ending `XYZ` pushes LF. -/
theorem setEol_defaults_to_LF_witness :
    setEol editorWithModelW "XYZ" = [ModelEffect.pushEOL EndOfLineSequence.LF] :=
  setEol_defaults_to_LF editorWithModelW { options := { tabSize := 4 } } "XYZ"
    rfl (by decide) (by decide)

/-- C2: a successful `registerBuiltinMonacoActions` run registers exactly
one host command per `ACTIONS` entry, in order; an id is registered exactly
when it is an editor-action id or a default-keybinding command id outside
`EXCLUDE_ACTIONS` (so the excluded ids are never registered); and every
registered command either mirrors an editor action with its label and icon
or is a bare default-keybinding entry. -/
theorem registerBuiltinMonacoActions_mirrors (menuItems : List MenuItem)
    (editorActions : List EditorAction) (defaultKeybindings : List DefaultKeybinding)
    (env : HandlersEnv) (reg : List (MonacoCommand × CommandHandler))
    (hreg : registerBuiltinMonacoActions env
        ((buildACTIONS menuItems editorActions defaultKeybindings).map Prod.snd)
      = Except.ok reg) :
    reg.map Prod.fst = (buildACTIONS menuItems editorActions defaultKeybindings).map Prod.snd
    ∧ (∀ id, (∃ c ∈ reg.map Prod.fst, c.id = id) ↔
        (((∃ a ∈ editorActions, a.id = id) ∨ (∃ b ∈ defaultKeybindings, b.command = id))
          ∧ id ∉ EXCLUDE_ACTIONS))
    ∧ (∀ c ∈ reg.map Prod.fst,
        (∃ a ∈ editorActions, a.id = c.id ∧
          c = { id := a.id, label := some a.label,
                icon := JSMap.get (buildIcons menuItems) a.id })
        ∨ (c = { id := c.id, label := none, icon := none }
          ∧ ∃ b ∈ defaultKeybindings, b.command = c.id)) := by
  have hmap := registerBuiltin_ok_map_fst env _ reg hreg
  refine ⟨hmap, ?_, ?_⟩
  · intro id
    rw [hmap, ← mem_keys_buildACTIONS menuItems editorActions defaultKeybindings id]
    constructor
    · rintro ⟨c, hc, rfl⟩
      obtain ⟨p, hp, rfl⟩ := List.mem_map.mp hc
      rw [buildACTIONS_entry_id _ _ _ p hp]
      exact List.mem_map.mpr ⟨p, hp, rfl⟩
    · intro hid
      obtain ⟨p, hp, hfst⟩ := List.mem_map.mp hid
      refine ⟨p.2, List.mem_map.mpr ⟨p, hp, rfl⟩, ?_⟩
      rw [buildACTIONS_entry_id _ _ _ p hp, hfst]
  · intro c hc
    rw [hmap] at hc
    obtain ⟨p, hp, rfl⟩ := List.mem_map.mp hc
    rcases buildACTIONS_entry_shape menuItems editorActions defaultKeybindings p hp with
      ⟨a, ha, hid, hv⟩ | ⟨hv, b, hb, hbid⟩
    · exact Or.inl ⟨a, ha, by rw [hv], hv⟩
    · refine Or.inr ⟨?_, b, hb, ?_⟩
      · rw [hv]
      · rw [hv]
        exact hbid

/-- C2 witness: on the sample environment and sample registries the
registration succeeds and registers exactly the two `ACTIONS` values. -/
theorem registerBuiltinMonacoActions_mirrors_witness :
    builtinRegW.map Prod.fst = (buildACTIONS [] eaW kbW).map Prod.snd :=
  (registerBuiltinMonacoActions_mirrors [] eaW kbW handlersEnvW builtinRegW rfl).1

/-- C3: `ACTIONS` maps each command id to at most one descriptor (its key
list is duplicate-free), and the default-keybinding pass never changes the
value stored under an id the editor-action pass already populated. -/
theorem ACTIONS_unique_by_id (menuItems : List MenuItem)
    (editorActions : List EditorAction) (defaultKeybindings : List DefaultKeybinding) :
    ((buildACTIONS menuItems editorActions defaultKeybindings).map Prod.fst).Nodup
    ∧ (∀ id, JSMap.has (actionsAfterEditorActions menuItems editorActions) id = true →
        JSMap.get (buildACTIONS menuItems editorActions defaultKeybindings) id
          = JSMap.get (actionsAfterEditorActions menuItems editorActions) id) := by
  constructor
  · unfold buildACTIONS
    apply nodup_keys_keybindingPass
    unfold actionsAfterEditorActions
    apply nodup_keys_actionsPass
    simp
  · intro id h
    unfold buildACTIONS
    exact keybindingPass_preserves defaultKeybindings _ id h

/-- C3 witness: on the sample registries the id `x` is populated by the
editor-action pass and survives the keybinding pass unchanged. -/
theorem ACTIONS_unique_by_id_witness :
    ((buildACTIONS [] eaW kbW).map Prod.fst).Nodup
    ∧ JSMap.get (buildACTIONS [] eaW kbW) "x"
        = JSMap.get (actionsAfterEditorActions [] eaW) "x" :=
  ⟨(ACTIONS_unique_by_id [] eaW kbW).1,
   (ACTIONS_unique_by_id [] eaW kbW).2 "x" (by decide)⟩

/-- C4: `registerInternalLanguageServiceCommands` registers exactly the
commands of the core registry whose id starts with `_execute`, and each
registered `execute` forwards its argument list unchanged to the original
command's handler through the instantiation service. -/
theorem registerInternalLanguageServiceCommands_forwards (accessor : Accessor)
    (monacoCommands : List (String × MonacoCoreCommand)) :
    registerInternalLanguageServiceCommands accessor monacoCommands
      = ((monacoCommands.map Prod.fst).filter
            (fun command => strStartsWith command "_execute")).map
          (fun command => (command, fun args =>
            (JSMap.get monacoCommands command).map
              (fun c => invokeFunction accessor c.handler args)))
    ∧ (registerInternalLanguageServiceCommands accessor monacoCommands).map Prod.fst
      = (monacoCommands.map Prod.fst).filter
          (fun command => strStartsWith command "_execute") := by
  have hmain : registerInternalLanguageServiceCommands accessor monacoCommands
      = ((monacoCommands.map Prod.fst).filter
            (fun command => strStartsWith command "_execute")).map
          (fun command => (command, fun args =>
            (JSMap.get monacoCommands command).map
              (fun c => invokeFunction accessor c.handler args))) := by
    unfold registerInternalLanguageServiceCommands
    exact (foldl_if_append _ _ _ _).trans (List.nil_append _)
  refine ⟨hmain, ?_⟩
  rw [hmain, List.map_map]
  exact List.map_id _

end Theia
